import Mathlib

/-!
logrjack: the entry builder and its call-stack capture.

A shallow embedding of `entry.go` (package `logrjack`) and the properties of its
specification.

Conventions of the embedding.

* A Go `string` is a Lean `String`, read as a sequence of code units.  The source only
  compares single units with `'/'`, slices at such a position and tests fixed ASCII
  prefixes and suffixes, so unit positions are all that matters.
* A Go `int` that counts frames or indexes a string is a `Nat`: `skipFrames + i` and the
  string index never leave `0 .. len`, so no wrap-around is involved.  A line number is an
  `Int`, rendered by `%d` as its signed decimal.
* A pointer-receiver method `func (e *entry) M(..)` is a function `entry → entry` (or
  `entry → Option entry` where the body contains the unbounded capture loop).
* The call stack is explicit: every function that takes part in the capture receives the
  frames of its callers, innermost first, and pushes its own frame (the file `entry.go`
  was compiled under, and the line of the call it makes) before calling further down.
* The unbounded loop `for i := 0; ; i++` runs on fuel: one unit per iteration, `none`
  when the fuel is used up before the loop reaches its `break`.
-/

namespace Logrjack

/-! ## Collaborators: `strings`, `runtime`, `logrus` -/

/-- Go `strings.HasPrefix(s, prefix)`:
`len(s) >= len(prefix) && s[0:len(prefix)] == prefix`. -/
def strings.HasPrefix (s pre : String) : Bool :=
  decide (pre.length ≤ s.length) && decide (s.data.take pre.length = pre.data)

/-- Go `strings.HasSuffix(s, suffix)`:
`len(s) >= len(suffix) && s[len(s)-len(suffix):] == suffix`. -/
def strings.HasSuffix (s suf : String) : Bool :=
  decide (suf.length ≤ s.length) && decide (s.data.drop (s.length - suf.length) = suf.data)

/-- Go `strings.Join(elems, sep)`: the elements in order with `sep` between neighbours,
the empty string for no element. -/
def strings.Join (elems : List String) (sep : String) : String :=
  sep.intercalate elems

/-- One frame of a goroutine stack as `runtime.Caller` reports it: the file the code
was compiled from and the line of the call in progress. -/
structure Frame where
  file : String
  line : Int
deriving DecidableEq, Repr

/-- Modelled from the spec: the stack introspection of the standard library, "given a
frame-skip count, return calling file name and line number, or a not-found sentinel at
the end of the stack".  `stack` holds the frames innermost first, the frame of the
function that calls `runtime.Caller` at index `0`; the result is `(file, line, ok)`. -/
def runtime.Caller (stack : List Frame) (skip : Nat) : String × Int × Bool :=
  match stack.get? skip with
  | some f => (f.file, f.line, true)
  | none => ("", 0, false)

/-- A non-nil Go `error`: the text `Error()` returns and whatever trace the value
carries inside (as `errors.WithStack` records one). -/
structure GoError where
  msg : String
  stack : List String
deriving DecidableEq, Repr

/-- A Go `interface{}` value as far as the builder meets one: it stores values and
never looks inside. -/
inductive Value where
  | nil
  | str (s : String)
  | int (n : Int)
  | error (e : GoError)
  | dyn (typeName : String) (payload : String)
deriving DecidableEq, Repr

/-- Passing an `error` where an `interface{}` is expected: the nil error is the nil
interface value, any other error is itself. -/
def Value.ofError : Option GoError → Value
  | none => Value.nil
  | some e => Value.error e

/-- Go `logrus.Fields`, a `map[string]interface{}`: a finite partial map from field
names to values. -/
abbrev logrus.Fields := String → Option Value

/-- The empty map `logrus.Fields{}`. -/
def logrus.Fields.empty : logrus.Fields := fun _ => none

/-- Go map assignment `m[k] = v`. -/
def logrus.Fields.set (m : logrus.Fields) (k : String) (v : Value) : logrus.Fields :=
  fun name => if name = k then some v else m name

/-- Modelled from the spec: the logger collaborator.  Only its formatter matters to the
builder: it turns a field set into text and may fail, returning the text produced so far
together with an error. -/
structure logrus.Logger where
  Formatter : logrus.Fields → String × Option GoError

/-- Modelled from the spec: the collaborator's log record, the logger it belongs to and
its field set `Data`. -/
structure logrus.Entry where
  Logger : logrus.Logger
  Data : logrus.Fields

/-- Modelled from the spec: `logrus.NewEntry(logger)`, a record with no field. -/
def logrus.NewEntry (logger : logrus.Logger) : logrus.Entry :=
  ⟨logger, logrus.Fields.empty⟩

/-- Modelled from the spec: `Entry.WithFields(fields)` returns a new record whose field
set is the old one with every binding of `fields` written over it (last write wins). -/
def logrus.Entry.WithFields (en : logrus.Entry) (fields : logrus.Fields) : logrus.Entry :=
  ⟨en.Logger, fun name =>
    match fields name with
    | some v => some v
    | none => en.Data name⟩

/-- Modelled from the spec: `Entry.WithField(key, value)` is `WithFields` of the
one-binding map. -/
def logrus.Entry.WithField (en : logrus.Entry) (key : String) (value : Value) :
    logrus.Entry :=
  en.WithFields (logrus.Fields.empty.set key value)

/-- Modelled from the spec: the collaborator's `Entry.String()`, the formatter applied
to the record: the rendered text and the formatter's error, if any. -/
def logrus.Entry.String (en : logrus.Entry) : String × Option GoError :=
  en.Logger.Formatter en.Data

/-! ## `entry.go` -/

/-- The struct `entry` of lines 11-13; its one field, named `entry` in the source, is
`logrusEntry` here. -/
structure entry where
  logrusEntry : logrus.Entry

/-- `NewEntry` (lines 65-69); `std` is the package variable of that name. -/
def NewEntry (std : logrus.Logger) : entry :=
  ⟨logrus.NewEntry std⟩

/-- `func (e *entry) AddField(key string, value interface{})` (lines 99-101). -/
def entry.AddField (e : entry) (key : String) (value : Value) : entry :=
  ⟨e.logrusEntry.WithField key value⟩

/-- `func (e *entry) AddError(err error)` (lines 94-96). -/
def entry.AddError (e : entry) (err : Option GoError) : entry :=
  e.AddField "err" (Value.ofError err)

/-- `func (e *entry) AddFields(fields map[string]interface{})` (lines 104-110).  The
argument lists the bindings of the Go map in the order `range` happens to visit them. -/
def entry.AddFields (e : entry) (fields : List (String × Value)) : entry :=
  let logrusFields := fields.foldl (fun m kv => m.set kv.1 kv.2) logrus.Fields.empty
  ⟨e.logrusEntry.WithFields logrusFields⟩

/-- The shortening loop of `getCaller` (lines 185-193), entered with the loop variable
`i` equal to the first argument and `count` equal to the second.  The loop runs while
`i > 0`; at `i = j + 1` it reads `file[j+1]` and, on the second `'/'`, breaks with
`short = file[j+2:]`.  Without a break `short` keeps its initial value `file`. -/
def shortLoop (file : String) : Nat → Nat → String
  | 0, _ => file
  | j + 1, count =>
    if file.data.get? (j + 1) = some '/' then
      if count + 1 = 2 then ⟨file.data.drop (j + 2)⟩
      else shortLoop file j (count + 1)
    else shortLoop file j count

/-- Lines 183-194 of `getCaller`: `short := file; count := 0`, the loop from
`i = len(file) - 1`, then `file = short`. -/
def shorten (file : String) : String :=
  shortLoop file (file.length - 1) 0

/-- `func getCaller(skip int) (file string, line int)` (lines 176-197).  `entryGo` is
the path `entry.go` was compiled under, `stack` the frames of the callers of
`getCaller`; the call of `runtime.Caller` is on line 178. -/
def getCaller (entryGo : String) (stack : List Frame) (skip : Nat) : String × Int :=
  match runtime.Caller (⟨entryGo, 178⟩ :: stack) skip with
  | (_, _, false) => ("???", 0)
  | (file, line, true) => (shorten file, line)

/-- The loop of `addCallstack` (lines 120-132) from loop variable `i` and slice `cs`
on; `stack` holds the frames of the callers of `addCallstack`, and the call of
`getCaller` is on line 122.  `fmt.Sprintf("%s:%d", file, line)` is the file, a colon and
the decimal of the line. -/
def addCallstackLoop (entryGo : String) (stack : List Frame) (skipFrames : Nat) :
    Nat → Nat → List String → Option (List String)
  | 0, _, _ => none
  | fuel + 1, i, cs =>
    match getCaller entryGo (⟨entryGo, 122⟩ :: stack) (skipFrames + i) with
    | (file, line) =>
      if file = "???" then some cs
      else if strings.HasSuffix file ".s" ||
          strings.HasPrefix file "http/server.go" ||
          strings.HasPrefix file "runtime/proc.go" then
        addCallstackLoop entryGo stack skipFrames fuel (i + 1) cs
      else
        addCallstackLoop entryGo stack skipFrames fuel (i + 1)
          (cs ++ [file ++ ":" ++ toString line])

/-- `func (e *entry) addCallstack(skipFrames int)` (lines 119-134). -/
def entry.addCallstack (e : entry) (entryGo : String) (stack : List Frame) (fuel : Nat)
    (skipFrames : Nat) : Option entry :=
  match addCallstackLoop entryGo stack skipFrames fuel 0 [] with
  | none => none
  | some cs => some (e.AddField "callstack" (Value.str (strings.Join cs ", ")))

/-- `func (e *entry) AddCallstack()` (lines 115-117): `stack` holds the frames of the
callers of `AddCallstack`, the call of `addCallstack` is on line 116. -/
def entry.AddCallstack (e : entry) (entryGo : String) (stack : List Frame) (fuel : Nat) :
    Option entry :=
  e.addCallstack entryGo (⟨entryGo, 116⟩ :: stack) fuel 3

/-- `func Callstack(err error) Entry` (lines 73-81): `stack` holds the frames of the
callers of `Callstack`, the call of `addCallstack` is on line 76. -/
def Callstack (std : logrus.Logger) (entryGo : String) (stack : List Frame) (fuel : Nat)
    (err : Option GoError) : Option entry :=
  match (entry.mk (logrus.NewEntry std)).addCallstack entryGo (⟨entryGo, 76⟩ :: stack) fuel 3 with
  | none => none
  | some e =>
    match err with
    | some _ => some (e.AddError err)
    | none => some e

/-- `func (e entry) String() string` (lines 85-91), placed last because its name shadows
the type `String` for the methods declared after it: `fmt.Sprintf("%s - <%s>", s, err)`
prints `s`, the text `" - <"`, `err.Error()` and `">"`. -/
def entry.String (e : entry) : String :=
  match e.logrusEntry.String with
  | (s, some err) => s ++ " - <" ++ err.msg ++ ">"
  | (s, none) => s

/-! ## Vocabulary of the specification -/

/-- The three exclusion tests of the capture loop (lines 126-128), on a shortened file
name. -/
def excluded (short : String) : Bool :=
  strings.HasSuffix short ".s" ||
    strings.HasPrefix short "http/server.go" ||
    strings.HasPrefix short "runtime/proc.go"

/-- Specification side: the rendering `shortFile:line` of a frame. -/
def Frame.token (f : Frame) : String :=
  shorten f.file ++ ":" ++ toString f.line

/-- Specification side: the renderings of the frames that pass the filter, in walk order. -/
def spec_tokens (frames : List Frame) : List String :=
  (frames.filter (fun f => !excluded (shorten f.file))).map Frame.token

/-- Specification side: the value of the field `callstack` for a walk over `frames`, the
renderings of the surviving frames joined with a comma and a space. -/
def spec_callstack (frames : List Frame) : String :=
  strings.Join (spec_tokens frames) ", "

/-- The frames up to, and without, the first one whose shortened file name is the text
`???`, the text `getCaller` also returns where no frame exists (the loop of
`addCallstack` breaks on that text).  By `shorten_eq_sentinel` it is the first frame
whose file name is `???`. -/
def walked (frames : List Frame) : List Frame :=
  frames.takeWhile (fun f => decide (shorten f.file ≠ "???"))

/-- The stack `runtime.Caller` looks at when `getCaller` is reached from the loop of
`addCallstack`: the frame of `getCaller` (line 178), the frame of `addCallstack`
(line 122), then the callers of `addCallstack`. -/
def seen (entryGo : String) (stack : List Frame) : List Frame :=
  ⟨entryGo, 178⟩ :: ⟨entryGo, 122⟩ :: stack

/-- The number of `/` in a text. -/
def slashes (l : List Char) : Nat :=
  (l.filter (fun c => decide (c = '/'))).length

/-- One call of a field-attaching operation of the builder. -/
inductive Call where
  | AddField (key : String) (value : Value)
  | AddFields (fields : List (String × Value))

/-- The effect of one call on an entry. -/
def Call.apply (e : entry) : Call → entry
  | Call.AddField key value => e.AddField key value
  | Call.AddFields fields => e.AddFields fields

/-- A sequence of calls applied to an entry, first call first. -/
def run (calls : List Call) (e : entry) : entry :=
  calls.foldl Call.apply e

/-- The writes one call makes, in the order it makes them. -/
def Call.writes : Call → List (String × Value)
  | Call.AddField key value => [(key, value)]
  | Call.AddFields fields => fields

/-- All writes of a sequence of calls, in order. -/
def writes : List Call → List (String × Value)
  | [] => []
  | c :: calls => c.writes ++ writes calls

/-- The value of the last write to `name` in a list of writes, `none` when `name` is
never written. -/
def lastWrite : List (String × Value) → logrus.Fields
  | [], _ => none
  | kv :: rest, name =>
    match lastWrite rest name with
    | some w => some w
    | none => if name = kv.1 then some kv.2 else none

/-! ## The capture loop -/

/-- What `getCaller` returns, by the frame at index `n` of the stack it looks at. -/
theorem getCaller_eq (g : String) (st : List Frame) (n : Nat) :
    getCaller g st n =
      match (Frame.mk g 178 :: st).get? n with
      | some f => (shorten f.file, f.line)
      | none => ("???", 0) := by
  unfold getCaller runtime.Caller
  cases (Frame.mk g 178 :: st).get? n <;> rfl

/-- A list from an index that exists on is the element there and the rest. -/
theorem drop_of_get?_some {α : Type} (l : List α) (n : Nat) (a : α)
    (h : l.get? n = some a) : l.drop n = a :: l.drop (n + 1) := by
  induction l generalizing n with
  | nil => simp at h
  | cons b l ih =>
    cases n with
    | zero => simp at h; simp [h]
    | succ n => simp at h; simpa using ih n (by simpa using h)

/-- A list from an index that does not exist on is empty. -/
theorem drop_of_get?_none {α : Type} (l : List α) (n : Nat)
    (h : l.get? n = none) : l.drop n = [] := by
  induction l generalizing n with
  | nil => simp
  | cons b l ih =>
    cases n with
    | zero => simp at h
    | succ n => simp at h; simpa using ih n (by simpa using h)

/-- An index that exists is below the length. -/
theorem length_of_get?_some {α : Type} (l : List α) (n : Nat) (a : α)
    (h : l.get? n = some a) : n < l.length := by
  induction l generalizing n with
  | nil => simp at h
  | cons b l ih =>
    cases n with
    | zero => simp
    | succ n => simp at h; simpa using ih n (by simpa using h)

/-! ## The shortening loop -/

/-- Counting the `/` from an index on: the one at the index, if any, and those after. -/
theorem slashes_drop_step (l : List Char) (n : Nat) :
    slashes (l.drop n) =
      (if l.get? n = some '/' then 1 else 0) + slashes (l.drop (n + 1)) := by
  rcases h : l.get? n with _ | c
  · rw [drop_of_get?_none l n h]
    have : l.drop (n + 1) = [] := by
      have := congrArg (List.drop 1) (drop_of_get?_none l n h)
      simpa [List.drop_drop, Nat.add_comm] using this
    simp [this, slashes]
  · rw [drop_of_get?_some l n c h]
    by_cases hc : c = '/'
    · simp [slashes, hc, Nat.add_comm]
    · simp [slashes, hc]

/-- Invariant of the shortening loop: entered at index `n` with `count` the number of `/`
after `n`, at most one, it either leaves the path whole, and then there is at most one
`/` after the first character, or cuts right after a `/` at an index `j ≥ 1`, and then
what is left holds exactly one `/`. -/
theorem shortLoop_spec (file : String) :
    ∀ (n count : Nat), count = slashes (file.data.drop (n + 1)) → count ≤ 1 →
      (shortLoop file n count = file ∧ slashes (file.data.drop 1) ≤ 1) ∨
      (∃ j, 1 ≤ j ∧ file.data.get? j = some '/' ∧
        (shortLoop file n count).data = file.data.drop (j + 1) ∧
        slashes (shortLoop file n count).data = 1) := by
  intro n
  induction n with
  | zero =>
    intro count hc hle
    left
    exact ⟨rfl, hc ▸ hle⟩
  | succ j ih =>
    intro count hc hle
    have hstep := slashes_drop_step file.data (j + 1)
    unfold shortLoop
    by_cases hs : file.data.get? (j + 1) = some '/'
    · rw [if_pos hs]
      rw [if_pos hs] at hstep
      by_cases h2 : count + 1 = 2
      · rw [if_pos h2]
        right
        refine ⟨j + 1, by omega, hs, rfl, ?_⟩
        show slashes (file.data.drop (j + 1 + 1)) = 1
        omega
      · rw [if_neg h2]
        exact ih (count + 1) (by omega) (by omega)
    · rw [if_neg hs]
      rw [if_neg hs] at hstep
      exact ih count (by omega) hle

/-- The shortened name is either the whole path, which then has at most one `/` after
its first character, or what follows a `/` at an index `j ≥ 1`, with exactly one `/`
in it. -/
theorem shorten_spec (file : String) :
    (shorten file = file ∧ slashes (file.data.drop 1) ≤ 1) ∨
    (∃ j, 1 ≤ j ∧ file.data.get? j = some '/' ∧
      (shorten file).data = file.data.drop (j + 1) ∧ slashes (shorten file).data = 1) := by
  unfold shorten
  apply shortLoop_spec
  · have : file.data.drop (file.length - 1 + 1) = [] := by
      apply List.drop_eq_nil_of_le
      show file.data.length ≤ _
      have : file.length = file.data.length := rfl
      omega
    rw [this]; rfl
  · exact Nat.zero_le _

/-- The shortened name is a suffix of the path, and it holds at most one `/` unless the
path is returned whole, begins with `/` and holds exactly two. -/
theorem shorten_two_segments (file : String) :
    (∃ dropped, file.data = dropped ++ (shorten file).data) ∧
    (slashes (shorten file).data ≤ 1 ∨
      (shorten file = file ∧ file.data.head? = some '/' ∧ slashes file.data = 2)) := by
  rcases shorten_spec file with ⟨h1, h2⟩ | ⟨j, _, _, h3, h4⟩
  · refine ⟨⟨[], by rw [h1]; rfl⟩, ?_⟩
    have hstep := slashes_drop_step file.data 0
    rw [List.drop_zero] at hstep
    by_cases hh : file.data.get? 0 = some '/'
    · rw [if_pos hh] at hstep
      have hz : slashes (file.data.drop (0 + 1)) = slashes (file.data.drop 1) := rfl
      by_cases h1' : slashes (file.data.drop 1) = 1
      · right
        refine ⟨h1, ?_, by omega⟩
        cases hd : file.data with
        | nil => rw [hd] at hh; simp at hh
        | cons c cs => rw [hd] at hh; simpa using hh
      · left
        rw [h1]
        have : slashes (file.data.drop (0 + 1)) = slashes (file.data.drop 1) := rfl
        omega
    · rw [if_neg hh] at hstep
      left
      rw [h1]
      have : slashes (file.data.drop (0 + 1)) = slashes (file.data.drop 1) := rfl
      omega
  · refine ⟨⟨file.data.take (j + 1), ?_⟩, Or.inl (by omega)⟩
    rw [h3, List.take_append_drop]

/-- The shortened name is the text `???` only for the path `???` itself. -/
theorem shorten_eq_sentinel (file : String) : shorten file = "???" ↔ file = "???" := by
  constructor
  · intro h
    rcases shorten_spec file with ⟨h1, _⟩ | ⟨j, _, _, _, h4⟩
    · rw [← h1, h]
    · rw [h] at h4
      exact absurd h4 (by decide)
  · intro h
    subst h
    decide

/-! ## The walk -/

/-- One step of `walked`. -/
theorem walked_cons (f : Frame) (rest : List Frame) :
    walked (f :: rest) = if shorten f.file = "???" then [] else f :: walked rest := by
  unfold walked
  by_cases h : shorten f.file = "???" <;> simp [List.takeWhile, h]

/-- The walk visits no more frames than there are. -/
theorem walked_length_le (frames : List Frame) : (walked frames).length ≤ frames.length := by
  induction frames with
  | nil => simp [walked]
  | cons f rest ih =>
    rw [walked_cons]
    split
    · simp
    · simpa using ih

/-- Where no file name is `???` the walk visits every frame. -/
theorem walked_eq_self (frames : List Frame) (h : ∀ f ∈ frames, f.file ≠ "???") :
    walked frames = frames := by
  induction frames with
  | nil => simp [walked]
  | cons f rest ih =>
    have hf : shorten f.file ≠ "???" := fun hs =>
      h f (by simp) ((shorten_eq_sentinel f.file).1 hs)
    rw [walked_cons, if_neg hf, ih (fun x hx => h x (by simp [hx]))]

/-- The walked frames are the frames before the first one named `???`: none of them has
that name, and the frame right after them, if there is one, has it. -/
theorem walked_split (frames : List Frame) :
    ∃ rest, frames = walked frames ++ rest ∧
      (∀ f ∈ walked frames, f.file ≠ "???") ∧
      (∀ f, rest.head? = some f → f.file = "???") := by
  induction frames with
  | nil => exact ⟨[], by simp [walked], by simp [walked], by simp⟩
  | cons f rest ih =>
    obtain ⟨r, h1, h2, h3⟩ := ih
    rw [walked_cons]
    by_cases hf : shorten f.file = "???"
    · rw [if_pos hf]
      refine ⟨f :: rest, rfl, by simp, ?_⟩
      intro x hx
      simp only [List.head?_cons, Option.some.injEq] at hx
      rw [← hx]
      exact (shorten_eq_sentinel f.file).1 hf
    · rw [if_neg hf]
      refine ⟨r, by rw [List.cons_append, ← h1], ?_, h3⟩
      intro x hx
      rcases List.mem_cons.1 hx with h0 | hr
      · rw [h0]
        exact fun hs => hf ((shorten_eq_sentinel f.file).2 hs)
      · exact h2 x hr

/-- A walked frame is a frame of the stack. -/
theorem mem_walked (frames : List Frame) (f : Frame) (h : f ∈ walked frames) :
    f ∈ frames := by
  induction frames with
  | nil => simp [walked] at h
  | cons f0 rest ih =>
    rw [walked_cons] at h
    split at h
    · simp at h
    · rcases List.mem_cons.1 h with h0 | hr
      · simp [h0]
      · exact List.mem_cons_of_mem _ (ih hr)

/-- One step of the walk on the specification side. -/
theorem spec_tokens_walked_cons (f : Frame) (rest : List Frame) :
    spec_tokens (walked (f :: rest)) =
      if shorten f.file = "???" then []
      else if excluded (shorten f.file) = true then spec_tokens (walked rest)
      else f.token :: spec_tokens (walked rest) := by
  unfold spec_tokens walked
  by_cases h : shorten f.file = "???"
  · simp [List.takeWhile, h]
  · by_cases h2 : excluded (shorten f.file) = true
    · simp [List.takeWhile, h, h2]
    · simp [List.takeWhile, h, h2]

/-- The capture loop from index `i` on: it makes one iteration per walked frame and one more
that breaks, and appends the renderings of the surviving frames to `cs`. -/
theorem addCallstackLoop_fuel (g : String) (stack : List Frame) (skip : Nat) :
    ∀ (fuel i : Nat) (cs : List String),
      addCallstackLoop g stack skip fuel i cs =
        if (walked ((seen g stack).drop (skip + i))).length < fuel then
          some (cs ++ spec_tokens (walked ((seen g stack).drop (skip + i))))
        else none := by
  intro fuel
  induction fuel with
  | zero => intro i cs; simp [addCallstackLoop]
  | succ fuel ih =>
    intro i cs
    unfold addCallstackLoop
    rw [getCaller_eq]
    have hs : (Frame.mk g 178 :: Frame.mk g 122 :: stack) = seen g stack := rfl
    rw [hs]
    rcases hget : (seen g stack).get? (skip + i) with _ | f
    · simp [drop_of_get?_none _ _ hget, spec_tokens, walked]
    · rw [drop_of_get?_some _ _ _ hget, spec_tokens_walked_cons, walked_cons]
      by_cases h1 : shorten f.file = "???"
      · simp [h1]
      · by_cases h2 : excluded (shorten f.file) = true
        · have h2' := h2
          unfold excluded at h2'
          simp only [h1, h2, h2', if_true, if_false]
          rw [ih (i + 1) cs]
          simp [Nat.add_assoc]
        · have h3 : excluded (shorten f.file) = false := by simpa using h2
          have h3' := h3
          unfold excluded at h3'
          simp only [h1, h3, h3', if_false, Bool.false_eq_true]
          rw [ih (i + 1) _, Frame.token]
          simp [Nat.add_assoc]

/-- The method `addCallstack`: the capture loop from index `0` and the field it attaches. -/
theorem addCallstack_fuel (g : String) (stack : List Frame) (skip fuel : Nat) (e : entry) :
    e.addCallstack g stack fuel skip =
      if (walked ((seen g stack).drop skip)).length < fuel then
        some (e.AddField "callstack"
          (Value.str (spec_callstack (walked ((seen g stack).drop skip)))))
      else none := by
  unfold entry.addCallstack
  rw [addCallstackLoop_fuel]
  by_cases h : (walked ((seen g stack).drop (skip + 0))).length < fuel
  · rw [if_pos h, if_pos (by simpa using h)]
    simp [spec_callstack]
  · rw [if_neg h, if_neg (by simpa using h)]

/-- The field set after `AddField`. -/
theorem AddField_data (e : entry) (key : String) (value : Value) (name : String) :
    (e.AddField key value).logrusEntry.Data name =
      if name = key then some value else e.logrusEntry.Data name := by
  unfold entry.AddField logrus.Entry.WithField logrus.Entry.WithFields logrus.Fields.set
    logrus.Fields.empty
  by_cases h : name = key <;> simp [h]

/-- Skip depth 3 starts the walk at the caller of the method that called `addCallstack`. -/
theorem addCallstack_three (g : String) (own : Frame) (stack : List Frame) (fuel : Nat)
    (e : entry) (h : stack.length < fuel) :
    e.addCallstack g (own :: stack) fuel 3 =
      some (e.AddField "callstack" (Value.str (spec_callstack (walked stack)))) := by
  rw [addCallstack_fuel]
  have hd : (seen g (own :: stack)).drop 3 = stack := rfl
  rw [hd, if_pos (lt_of_le_of_lt (walked_length_le stack) h)]

/-- The method `AddCallstack` with fuel for every frame of the caller stack. -/
theorem AddCallstack_eq (g : String) (stack : List Frame) (fuel : Nat) (e : entry)
    (h : stack.length < fuel) :
    e.AddCallstack g stack fuel =
      some (e.AddField "callstack" (Value.str (spec_callstack (walked stack)))) :=
  addCallstack_three g _ stack fuel e h

/-! ## Renderings and the colon -/

/-- A decimal digit is no colon. -/
theorem digitChar_ne_colon (n : Nat) : Nat.digitChar (n % 10) ≠ ':' := by
  have hfin : ∀ m : Fin 10, Nat.digitChar m.val ≠ ':' := by decide
  exact hfin ⟨n % 10, Nat.mod_lt n (by decide)⟩

/-- The digits of a number hold no colon. -/
theorem toDigitsCore_no_colon (fuel : Nat) :
    ∀ (n : Nat) (ds : List Char), ':' ∉ ds → ':' ∉ Nat.toDigitsCore 10 fuel n ds := by
  induction fuel with
  | zero => intro n ds h; simpa [Nat.toDigitsCore] using h
  | succ fuel ih =>
    intro n ds h
    have hc : ':' ∉ Nat.digitChar (n % 10) :: ds := by
      simp only [List.mem_cons, not_or]
      exact ⟨fun hh => digitChar_ne_colon _ hh.symm, h⟩
    unfold Nat.toDigitsCore
    simp only
    split
    · exact hc
    · exact ih _ _ hc

/-- The decimal of a natural number holds no colon. -/
theorem natRepr_no_colon (n : Nat) : ':' ∉ (Nat.repr n).data := by
  unfold Nat.repr Nat.toDigits
  exact toDigitsCore_no_colon _ _ _ (by simp)

/-- The decimal of a line number, as `%d` prints it, holds no colon. -/
theorem decimal_no_colon (line : Int) : ':' ∉ (toString line).data := by
  cases line with
  | ofNat m => exact natRepr_no_colon m
  | negSucc m =>
    show ':' ∉ ("-" ++ Nat.repr (Nat.succ m)).data
    rw [String.data_append]
    simp only [List.mem_append, not_or]
    exact ⟨by decide, natRepr_no_colon _⟩

/-- Two texts that end in a colon and a colon-free rest agree before that colon when they
are equal. -/
theorem split_at_last_colon (a b d d' : List Char) (hd : ':' ∉ d) (hd' : ':' ∉ d')
    (h : a ++ ':' :: d = b ++ ':' :: d') : a = b := by
  induction a generalizing b with
  | nil =>
    cases b with
    | nil => rfl
    | cons c b =>
      simp only [List.nil_append, List.cons_append, List.cons.injEq] at h
      exact absurd (h.2 ▸ (by simp : ':' ∈ b ++ ':' :: d')) hd
  | cons c a ih =>
    cases b with
    | nil =>
      simp only [List.nil_append, List.cons_append, List.cons.injEq] at h
      exact absurd (h.2 ▸ (by simp : ':' ∈ a ++ ':' :: d)) hd'
    | cons c' b =>
      simp only [List.cons_append, List.cons.injEq] at h
      rw [h.1, ih b h.2]

/-- Equal renderings come from equal shortened file names. -/
theorem token_file_inj (f f' : Frame) (h : f.token = f'.token) :
    shorten f.file = shorten f'.file := by
  unfold Frame.token at h
  have h' := congrArg String.data h
  simp only [String.data_append] at h'
  rw [List.append_assoc, List.append_assoc] at h'
  apply String.ext
  exact split_at_last_colon _ _ _ _ (decimal_no_colon _) (decimal_no_colon _) h'

/-! ## Field sets -/

/-- Two entries with the same logger and the same value under every field name are equal. -/
theorem entry_ext (a b : entry) (hl : a.logrusEntry.Logger = b.logrusEntry.Logger)
    (hd : ∀ name, a.logrusEntry.Data name = b.logrusEntry.Data name) : a = b := by
  obtain ⟨⟨la, da⟩⟩ := a
  obtain ⟨⟨lb, db⟩⟩ := b
  simp only at hl hd
  have : da = db := funext hd
  subst hl this
  rfl

/-- The last write of two lists of writes in sequence. -/
theorem lastWrite_append (a b : List (String × Value)) (name : String) :
    lastWrite (a ++ b) name =
      match lastWrite b name with
      | some w => some w
      | none => lastWrite a name := by
  induction a with
  | nil => simp [lastWrite]; cases lastWrite b name <;> rfl
  | cons kv rest ih =>
    have e1 : lastWrite (kv :: (rest ++ b)) name =
        match lastWrite (rest ++ b) name with
        | some w => some w
        | none => if name = kv.1 then some kv.2 else none := rfl
    have e2 : lastWrite (kv :: rest) name =
        match lastWrite rest name with
        | some w => some w
        | none => if name = kv.1 then some kv.2 else none := rfl
    rw [List.cons_append, e1, e2, ih]
    cases lastWrite b name <;> rfl

/-- The map built by assigning the bindings of a list in order. -/
theorem foldl_set_apply (fields : List (String × Value)) (m : logrus.Fields)
    (name : String) :
    (fields.foldl (fun m kv => m.set kv.1 kv.2) m) name =
      match lastWrite fields name with
      | some w => some w
      | none => m name := by
  induction fields generalizing m with
  | nil => rfl
  | cons kv rest ih =>
    simp only [List.foldl_cons, ih, lastWrite]
    cases lastWrite rest name with
    | some w => rfl
    | none =>
      by_cases h : name = kv.1 <;> simp [logrus.Fields.set, h]

/-- The field set after `AddFields`. -/
theorem AddFields_data (e : entry) (fields : List (String × Value)) (name : String) :
    (e.AddFields fields).logrusEntry.Data name =
      match lastWrite fields name with
      | some w => some w
      | none => e.logrusEntry.Data name := by
  unfold entry.AddFields logrus.Entry.WithFields
  simp only [foldl_set_apply]
  cases lastWrite fields name <;> rfl

/-- The field set after one call. -/
theorem Call.apply_data (e : entry) (c : Call) (name : String) :
    (c.apply e).logrusEntry.Data name =
      match lastWrite c.writes name with
      | some w => some w
      | none => e.logrusEntry.Data name := by
  cases c with
  | AddField key value =>
    simp only [Call.apply, Call.writes, lastWrite, AddField_data]
    by_cases h : name = key <;> simp [h]
  | AddFields fields => exact AddFields_data e fields name

/-- A call leaves the logger alone. -/
theorem Call.apply_logger (e : entry) (c : Call) :
    (c.apply e).logrusEntry.Logger = e.logrusEntry.Logger := by
  cases c <;> rfl

/-- The field set after a sequence of calls. -/
theorem run_data (calls : List Call) (e : entry) (name : String) :
    (run calls e).logrusEntry.Data name =
      match lastWrite (writes calls) name with
      | some w => some w
      | none => e.logrusEntry.Data name := by
  induction calls generalizing e with
  | nil => rfl
  | cons c calls ih =>
    have : run (c :: calls) e = run calls (c.apply e) := rfl
    rw [this, ih, writes, lastWrite_append, Call.apply_data]
    cases lastWrite (writes calls) name <;> rfl

/-- A sequence of calls leaves the logger alone. -/
theorem run_logger (calls : List Call) (e : entry) :
    (run calls e).logrusEntry.Logger = e.logrusEntry.Logger := by
  induction calls generalizing e with
  | nil => rfl
  | cons c calls ih =>
    have : run (c :: calls) e = run calls (c.apply e) := rfl
    rw [this, ih, Call.apply_logger]

/-- A name that is no key of the list is never written. -/
theorem lastWrite_eq_none (l : List (String × Value)) (name : String)
    (h : name ∉ l.map Prod.fst) : lastWrite l name = none := by
  induction l with
  | nil => rfl
  | cons kv rest ih =>
    simp only [List.map_cons, List.mem_cons, not_or] at h
    simp [lastWrite, ih h.2, h.1]

/-- The last write to a name is one of the writes. -/
theorem mem_of_lastWrite (l : List (String × Value)) (name : String) (v : Value)
    (h : lastWrite l name = some v) : (name, v) ∈ l := by
  induction l with
  | nil => simp [lastWrite] at h
  | cons kv rest ih =>
    simp only [lastWrite] at h
    cases hr : lastWrite rest name with
    | some w =>
      rw [hr] at h
      simp only [Option.some.injEq] at h
      subst h
      exact List.mem_cons_of_mem _ (ih hr)
    | none =>
      rw [hr] at h
      by_cases hk : name = kv.1
      · simp only [hk, if_true, Option.some.injEq] at h
        rw [hk, ← h]
        simp
      · simp [hk] at h

/-- With distinct keys every binding is the last write to its key. -/
theorem lastWrite_of_mem (l : List (String × Value)) (hnd : (l.map Prod.fst).Nodup)
    (kv : String × Value) (h : kv ∈ l) : lastWrite l kv.1 = some kv.2 := by
  induction l with
  | nil => simp at h
  | cons kv0 rest ih =>
    simp only [List.map_cons, List.nodup_cons] at hnd
    rcases List.mem_cons.1 h with h0 | hr
    · subst h0
      simp [lastWrite, lastWrite_eq_none rest kv.1 hnd.1]
    · simp [lastWrite, ih hnd.2 hr]

/-- With distinct keys the last write does not depend on the order of the bindings. -/
theorem lastWrite_perm (l l' : List (String × Value)) (hp : l'.Perm l)
    (hnd : (l.map Prod.fst).Nodup) (name : String) :
    lastWrite l' name = lastWrite l name := by
  have hnd' : (l'.map Prod.fst).Nodup := ((hp.map Prod.fst).nodup_iff).2 hnd
  cases h : lastWrite l name with
  | none =>
    cases h' : lastWrite l' name with
    | none => rfl
    | some v =>
      have hm : (name, v) ∈ l := hp.mem_iff.1 (mem_of_lastWrite l' name v h')
      have := lastWrite_of_mem l hnd (name, v) hm
      simp [h] at this
  | some v =>
    have hm : (name, v) ∈ l' := hp.mem_iff.2 (mem_of_lastWrite l name v h)
    exact lastWrite_of_mem l' hnd' (name, v) hm

/-- The field set after `AddField` for each binding of a list in order. -/
theorem foldl_AddField_data (fields : List (String × Value)) (e : entry) (name : String) :
    (fields.foldl (fun e kv => e.AddField kv.1 kv.2) e).logrusEntry.Data name =
      match lastWrite fields name with
      | some w => some w
      | none => e.logrusEntry.Data name := by
  induction fields generalizing e with
  | nil => rfl
  | cons kv rest ih =>
    simp only [List.foldl_cons, ih, lastWrite, AddField_data]
    cases lastWrite rest name with
    | some w => rfl
    | none => by_cases h : name = kv.1 <;> simp [h]

/-- The calls of `AddField` for a list of bindings leave the logger alone. -/
theorem foldl_AddField_logger (fields : List (String × Value)) (e : entry) :
    (fields.foldl (fun e kv => e.AddField kv.1 kv.2) e).logrusEntry.Logger =
      e.logrusEntry.Logger := by
  induction fields generalizing e with
  | nil => rfl
  | cons kv rest ih => simp only [List.foldl_cons, ih]; rfl

/-! ## The claims -/

/-- Counterexample to C1 as stated.  The caller stack holds three frames and the middle
one has the file name `???`.  `AddCallstack` stores `a/b.go:1`: the walk ends at the
middle frame, so neither it nor the frame after it is rendered, whereas rendering every
frame that passes the filter gives `a/b.go:1, ???:2, c/d.go:3`. -/
theorem AddCallstack_stops_at_sentinel_file :
    (entry.AddCallstack (NewEntry ⟨fun _ => ("", none)⟩) "/go/src/logrjack/entry.go"
        [⟨"/w/a/b.go", 1⟩, ⟨"???", 2⟩, ⟨"/w/c/d.go", 3⟩] 10).map
      (fun e => e.logrusEntry.Data "callstack") = some (some (Value.str "a/b.go:1")) ∧
    spec_callstack [⟨"/w/a/b.go", 1⟩, ⟨"???", 2⟩, ⟨"/w/c/d.go", 3⟩] =
      "a/b.go:1, ???:2, c/d.go:3" ∧
    (entry.AddCallstack (NewEntry ⟨fun _ => ("", none)⟩) "/go/src/logrjack/entry.go"
        [⟨"/w/a/b.go", 1⟩, ⟨"???", 2⟩, ⟨"/w/c/d.go", 3⟩] 10).map
      (fun e => e.logrusEntry.Data "callstack") ≠
      some (some (Value.str
        (spec_callstack [⟨"/w/a/b.go", 1⟩, ⟨"???", 2⟩, ⟨"/w/c/d.go", 3⟩]))) := by
  decide

/-- C1 (amended).  With fuel for every frame of the caller stack, `AddCallstack` returns the
entry with the field `callstack` set to exactly this string: the frames of the caller
stack are taken innermost first from the caller of `AddCallstack` on (the frames of
`getCaller`, `addCallstack` and `AddCallstack` are not among them), up to the first frame
whose file name is `???`; every frame whose shortened file name ends in `.s` or begins
with `http/server.go` or `runtime/proc.go` is dropped without stopping the walk; the
others are rendered as short file, colon, decimal line and joined with a comma and a
space in walk order.  The walked frames are the frames before the first one named `???`,
so where no file name is `???` the walk covers the whole caller stack. -/
theorem AddCallstack_value (g : String) (stack : List Frame) (fuel : Nat) (e : entry)
    (h : stack.length < fuel) :
    e.AddCallstack g stack fuel =
        some (e.AddField "callstack" (Value.str (spec_callstack (walked stack)))) ∧
    (e.AddField "callstack" (Value.str (spec_callstack (walked stack)))).logrusEntry.Data
        "callstack" = some (Value.str (spec_callstack (walked stack))) ∧
    (∃ rest, stack = walked stack ++ rest ∧
      (∀ f ∈ walked stack, f.file ≠ "???") ∧
      (∀ f, rest.head? = some f → f.file = "???")) ∧
    ((∀ f ∈ stack, f.file ≠ "???") → walked stack = stack) := by
  refine ⟨AddCallstack_eq g stack fuel e h, ?_, walked_split stack, walked_eq_self stack⟩
  rw [AddField_data]; simp

/-- Witness for C1: a caller stack of three frames with an assembly frame in the middle,
which is dropped while the frame after it is kept. -/
theorem AddCallstack_value_witness :
    entry.AddCallstack (NewEntry ⟨fun _ => ("", none)⟩) "/go/src/logrjack/entry.go"
        [⟨"/w/a/b.go", 1⟩, ⟨"/go/src/runtime/asm_amd64.s", 2⟩, ⟨"/w/c/d.go", 3⟩] 4 =
      some ((NewEntry ⟨fun _ => ("", none)⟩).AddField "callstack"
        (Value.str (spec_callstack (walked
          [⟨"/w/a/b.go", 1⟩, ⟨"/go/src/runtime/asm_amd64.s", 2⟩, ⟨"/w/c/d.go", 3⟩])))) ∧
    spec_callstack (walked
          [⟨"/w/a/b.go", 1⟩, ⟨"/go/src/runtime/asm_amd64.s", 2⟩, ⟨"/w/c/d.go", 3⟩]) =
      "a/b.go:1, c/d.go:3" :=
  ⟨(AddCallstack_value _ _ 4 _ (by decide)).1, by decide⟩

/-- C2.  With enough fuel the capture loop of `addCallstack` returns a list `cs` of tokens,
and the field `callstack` is set to `cs` joined with a comma and a space.  Every token
is the rendering of a frame of the stack at or after the skip depth whose shortened file
name fails all three exclusion tests, and no token is the rendering of any frame whose
shortened file name ends in `.s` or begins with `http/server.go` or
`runtime/proc.go`. -/
theorem filtered_frames_never_rendered (g : String) (stack : List Frame)
    (skip fuel : Nat) (e : entry) (h : (seen g stack).length - skip < fuel) :
    ∃ cs, addCallstackLoop g stack skip fuel 0 [] = some cs ∧
      e.addCallstack g stack fuel skip =
        some (e.AddField "callstack" (Value.str (strings.Join cs ", "))) ∧
      ∀ t ∈ cs,
        (∃ f ∈ (seen g stack).drop skip,
          excluded (shorten f.file) = false ∧ t = f.token) ∧
        (∀ f : Frame, excluded (shorten f.file) = true → t ≠ f.token) := by
  have hlt : (walked ((seen g stack).drop (skip + 0))).length < fuel :=
    lt_of_le_of_lt (le_trans (walked_length_le _) (by simp)) h
  have hloop : addCallstackLoop g stack skip fuel 0 [] =
      some (spec_tokens (walked ((seen g stack).drop (skip + 0)))) := by
    rw [addCallstackLoop_fuel, if_pos hlt]; rfl
  refine ⟨_, hloop, ?_, ?_⟩
  · unfold entry.addCallstack
    rw [hloop]
  · intro t ht
    simp only [spec_tokens, List.mem_map, List.mem_filter] at ht
    obtain ⟨f, ⟨hf, hex⟩, rfl⟩ := ht
    have hex' : excluded (shorten f.file) = false := by simpa using hex
    refine ⟨⟨f, ?_, hex', rfl⟩, ?_⟩
    · exact mem_walked _ f (by simpa using hf)
    · intro f' hf' heq
      rw [token_file_inj f f' heq, hf'] at hex'
      exact Bool.noConfusion hex'

/-- Witness for C2: a stack with an assembly frame between two ordinary frames; no token
is the rendering of the assembly frame. -/
theorem filtered_frames_never_rendered_witness :
    ∃ cs, addCallstackLoop "/go/src/logrjack/entry.go"
        [⟨"/go/src/logrjack/entry.go", 116⟩, ⟨"/w/a/b.go", 1⟩,
          ⟨"/go/src/runtime/asm_amd64.s", 2⟩, ⟨"/w/c/d.go", 3⟩] 3 4 0 [] = some cs ∧
      ∀ t ∈ cs, t ≠ Frame.token ⟨"/go/src/runtime/asm_amd64.s", 2⟩ := by
  obtain ⟨cs, h1, _, h3⟩ := filtered_frames_never_rendered "/go/src/logrjack/entry.go"
    [⟨"/go/src/logrjack/entry.go", 116⟩, ⟨"/w/a/b.go", 1⟩,
      ⟨"/go/src/runtime/asm_amd64.s", 2⟩, ⟨"/w/c/d.go", 3⟩] 3 4
    (NewEntry ⟨fun _ => ("", none)⟩) (by decide)
  exact ⟨cs, h1, fun t ht => (h3 t ht).2 _ (by decide)⟩

/-- C3.  For every entry and every caller stack, with fuel for every frame, `AddCallstack`
returns an entry in which the field `callstack` is present and holds a string; when
every walked frame is filtered out (in particular when the walk is empty) that string is
the empty string. -/
theorem AddCallstack_always_attaches (g : String) (stack : List Frame) (fuel : Nat)
    (e : entry) (h : stack.length < fuel) :
    ∃ e' s, e.AddCallstack g stack fuel = some e' ∧
      e'.logrusEntry.Data "callstack" = some (Value.str s) ∧
      ((∀ f ∈ walked stack, excluded (shorten f.file) = true) → s = "") := by
  refine ⟨e.AddField "callstack" (Value.str (spec_callstack (walked stack))),
    spec_callstack (walked stack), AddCallstack_eq g stack fuel e h, ?_, ?_⟩
  · rw [AddField_data]; simp
  · intro hall
    have : (walked stack).filter (fun f => !excluded (shorten f.file)) = [] := by
      rw [List.filter_eq_nil_iff]
      intro f hf
      simp [hall f hf]
    simp [spec_callstack, spec_tokens, this, strings.Join]
    rfl

/-- Witness for C3: every frame of the caller stack is filtered out and the field
`callstack` is present with the empty string. -/
theorem AddCallstack_always_attaches_witness :
    ∃ e', (NewEntry ⟨fun _ => ("", none)⟩).AddCallstack "/go/src/logrjack/entry.go"
        [⟨"/go/src/runtime/asm_amd64.s", 2⟩, ⟨"/go/src/net/http/server.go", 5⟩,
          ⟨"/go/src/runtime/proc.go", 7⟩] 4 = some e' ∧
      e'.logrusEntry.Data "callstack" = some (Value.str "") := by
  obtain ⟨e', s, h1, h2, h3⟩ := AddCallstack_always_attaches "/go/src/logrjack/entry.go"
    [⟨"/go/src/runtime/asm_amd64.s", 2⟩, ⟨"/go/src/net/http/server.go", 5⟩,
      ⟨"/go/src/runtime/proc.go", 7⟩] 4 (NewEntry ⟨fun _ => ("", none)⟩) (by decide)
  have hs : s = "" := h3 (by decide)
  subst hs
  exact ⟨e', h1, h2⟩

/-- C4 (defect).  The shortening loop runs while `i > 0` and never reads `file[0]`, so a
path whose second `/` from the end is its first character is returned whole: for
`/app/main.go` the shortened name is `/app/main.go`, with two `/`, not the last two
segments `app/main.go`; `getCaller` reports it for a frame of that file.  One directory
deeper the loop does cut: `/srv/app/main.go` becomes `app/main.go`. -/
theorem shorten_keeps_leading_slash_path :
    shorten "/app/main.go" = "/app/main.go" ∧
    slashes (shorten "/app/main.go").data = 2 ∧
    getCaller "/go/src/logrjack/entry.go" [⟨"/app/main.go", 7⟩] 1 = ("/app/main.go", 7) ∧
    shorten "/srv/app/main.go" = "app/main.go" := by
  decide

/-- C5.  Any sequence of `AddField` and `AddFields` calls applied to a new entry yields
the entry whose field set maps every name to the value of the last write to it, and to
nothing when the name was never written; `String()` of the result is `String()` of that
last-write-wins entry; `AddField("a", 1)` then `AddField("a", 2)` leaves `a = 2` and no
other binding. -/
theorem last_write_wins (std : logrus.Logger) (calls : List Call) :
    run calls (NewEntry std) = ⟨⟨std, lastWrite (writes calls)⟩⟩ ∧
    (run calls (NewEntry std)).String =
      (entry.mk ⟨std, lastWrite (writes calls)⟩).String ∧
    (fun name => (((NewEntry std).AddField "a" (Value.int 1)).AddField "a"
        (Value.int 2)).logrusEntry.Data name) =
      (fun name => if name = "a" then some (Value.int 2) else none) := by
  have h1 : run calls (NewEntry std) = ⟨⟨std, lastWrite (writes calls)⟩⟩ := by
    apply entry_ext
    · rw [run_logger]; rfl
    · intro name
      rw [run_data]
      show _ = lastWrite (writes calls) name
      cases lastWrite (writes calls) name <;> rfl
  refine ⟨h1, by rw [h1], ?_⟩
  funext name
  rw [AddField_data, AddField_data]
  by_cases h : name = "a" <;> simp [h, NewEntry, logrus.NewEntry, logrus.Fields.empty]

/-- C6.  With fuel for every frame of the caller stack, `Callstack(err)` returns what
`NewEntry()`, then `AddCallstack()`, then `AddError(err)` only for a non-nil `err`,
return when made by the same caller stack.  The first frame its walk asks for is the
head of the caller stack, the caller of `Callstack`.  The result holds `callstack` with
the value of the walk over the caller stack, holds `err` with the error exactly when
`err` is non-nil, and holds no other field. -/
theorem Callstack_refines (std : logrus.Logger) (g : String) (stack : List Frame)
    (fuel : Nat) (err : Option GoError) (h : stack.length < fuel) :
    Callstack std g stack fuel err =
        ((NewEntry std).AddCallstack g stack fuel).map
          (fun e => match err with
            | some _ => e.AddError err
            | none => e) ∧
    getCaller g (⟨g, 122⟩ :: ⟨g, 76⟩ :: stack) (3 + 0) =
        (match stack.head? with
          | some f => (shorten f.file, f.line)
          | none => ("???", 0)) ∧
    ∃ e, Callstack std g stack fuel err = some e ∧
      e.logrusEntry.Data "callstack" = some (Value.str (spec_callstack (walked stack))) ∧
      e.logrusEntry.Data "err" = err.map Value.error ∧
      ∀ name, name ≠ "callstack" → name ≠ "err" → e.logrusEntry.Data name = none := by
  have hc : (entry.mk (logrus.NewEntry std)).addCallstack g (⟨g, 76⟩ :: stack) fuel 3 =
      some ((NewEntry std).AddField "callstack"
        (Value.str (spec_callstack (walked stack)))) :=
    addCallstack_three g _ stack fuel _ h
  refine ⟨?_, ?_, ?_⟩
  · unfold Callstack
    rw [hc, AddCallstack_eq g stack fuel _ h]
    cases err <;> rfl
  · rw [getCaller_eq]
    cases stack <;> rfl
  · unfold Callstack
    rw [hc]
    cases err with
    | none =>
      refine ⟨_, rfl, ?_, ?_, ?_⟩
      · rw [AddField_data]; simp
      · rw [AddField_data]; simp [NewEntry, logrus.NewEntry, logrus.Fields.empty]
      · intro name h1 h2
        rw [AddField_data]; simp [h1, NewEntry, logrus.NewEntry, logrus.Fields.empty]
    | some x =>
      refine ⟨_, rfl, ?_, ?_, ?_⟩
      · unfold entry.AddError
        rw [AddField_data, AddField_data]; simp
      · unfold entry.AddError
        rw [AddField_data]; simp [Value.ofError]
      · intro name h1 h2
        unfold entry.AddError
        rw [AddField_data, AddField_data]
        simp [h1, h2, NewEntry, logrus.NewEntry, logrus.Fields.empty]

/-- Witness for C6: a non-nil error and a caller stack of two frames. -/
theorem Callstack_refines_witness :
    Callstack ⟨fun _ => ("", none)⟩ "/go/src/logrjack/entry.go"
        [⟨"/w/a/b.go", 1⟩, ⟨"/go/src/runtime/proc.go", 2⟩] 3 (some ⟨"EOF", []⟩) =
      ((NewEntry ⟨fun _ => ("", none)⟩).AddCallstack "/go/src/logrjack/entry.go"
        [⟨"/w/a/b.go", 1⟩, ⟨"/go/src/runtime/proc.go", 2⟩] 3).map
          (fun e => e.AddError (some ⟨"EOF", []⟩)) ∧
    spec_callstack (walked [⟨"/w/a/b.go", 1⟩, ⟨"/go/src/runtime/proc.go", 2⟩]) = "a/b.go:1" :=
  ⟨(Callstack_refines _ _ _ 3 (some ⟨"EOF", []⟩) (by decide)).1, by decide⟩

/-- C7.  `String()` is total.  When the formatter succeeds with text `s` it returns `s`.
When the formatter fails with text `s` and error `err` it returns `s`, then ` - <`, then
the message of `err`, then `>`: a non-empty string that contains the message, whatever
`s` is. -/
theorem String_never_fails (e : entry) :
    (∀ s, e.logrusEntry.String = (s, none) → e.String = s) ∧
    (∀ s err, e.logrusEntry.String = (s, some err) →
      e.String = s ++ " - <" ++ err.msg ++ ">" ∧
      e.String ≠ "" ∧
      ∃ before after, e.String = before ++ err.msg ++ after) := by
  constructor
  · intro s hs
    simp [entry.String, hs]
  · intro s err hs
    have hE : e.String = s ++ " - <" ++ err.msg ++ ">" := by simp [entry.String, hs]
    refine ⟨hE, ?_, s ++ " - <", ">", hE⟩
    rw [hE]
    intro h0
    have := congrArg String.length h0
    simp only [String.length_append] at this
    have h1 : (">" : String).length = 1 := rfl
    have h2 : ("" : String).length = 0 := rfl
    omega

/-- Witness for C7: a formatter that always fails with no text. -/
theorem String_never_fails_witness :
    (entry.mk ⟨⟨fun _ => ("", some ⟨"boom", []⟩)⟩, logrus.Fields.empty⟩).String =
      "" ++ " - <" ++ "boom" ++ ">" :=
  ((String_never_fails ⟨⟨⟨fun _ => ("", some ⟨"boom", []⟩)⟩, logrus.Fields.empty⟩⟩).2
    "" ⟨"boom", []⟩ rfl).1

/-- C9.  For a mapping given by its bindings (distinct keys), `AddFields` binds every key
of the mapping to the mapping's value and leaves every other field name as it was; the
result equals `AddField` applied to the bindings in any order, and `AddFields` itself
gives the same entry for any order; `AddFields` of the empty mapping changes nothing. -/
theorem AddFields_overrides (e : entry) (fields : List (String × Value))
    (hnd : (fields.map Prod.fst).Nodup) :
    (∀ kv ∈ fields, (e.AddFields fields).logrusEntry.Data kv.1 = some kv.2) ∧
    (∀ name, name ∉ fields.map Prod.fst →
      (e.AddFields fields).logrusEntry.Data name = e.logrusEntry.Data name) ∧
    (∀ order : List (String × Value), order.Perm fields →
      order.foldl (fun e kv => e.AddField kv.1 kv.2) e = e.AddFields fields ∧
      e.AddFields order = e.AddFields fields) ∧
    e.AddFields [] = e := by
  refine ⟨?_, ?_, ?_, rfl⟩
  · intro kv hkv
    rw [AddFields_data, lastWrite_of_mem fields hnd kv hkv]
  · intro name hname
    rw [AddFields_data, lastWrite_eq_none fields name hname]
  · intro order hp
    constructor
    · apply entry_ext
      · rw [foldl_AddField_logger]; rfl
      · intro name
        rw [foldl_AddField_data, AddFields_data, lastWrite_perm fields order hp hnd]
    · apply entry_ext
      · rfl
      · intro name
        rw [AddFields_data, AddFields_data, lastWrite_perm fields order hp hnd]

/-- Witness for C9: a two-binding mapping, one binding overwriting an existing field,
applied through `AddFields` and through `AddField` in the opposite order. -/
theorem AddFields_overrides_witness :
    ((NewEntry ⟨fun _ => ("", none)⟩).AddField "b" (Value.int 0)).AddFields
        [("a", Value.int 1), ("b", Value.str "x")] =
      [("b", Value.str "x"), ("a", Value.int 1)].foldl (fun e kv => e.AddField kv.1 kv.2)
        ((NewEntry ⟨fun _ => ("", none)⟩).AddField "b" (Value.int 0)) :=
  ((AddFields_overrides ((NewEntry ⟨fun _ => ("", none)⟩).AddField "b" (Value.int 0))
    [("a", Value.int 1), ("b", Value.str "x")] (by decide)).2.2.1
      [("b", Value.str "x"), ("a", Value.int 1)] (List.Perm.swap _ _ _)).1.symm

end Logrjack
